import Mathlib

/-!
Shallow embedding of `src/zathura-analyzer.py`.

Modelling conventions:
* Python strings are `List Char` (code points); Python's `str.strip` /
  whitespace class is modelled by `pyIsSpace` (the ASCII whitespace
  characters of Python's `\s`).
* CSV numbers (the `duration` column, seconds) and all durations are `ℚ`;
  pandas float64 arithmetic is modelled by exact rational arithmetic, and
  `Series.round(2)` by `round2` (round half towards +∞ on the scaled
  value; the half-way tie-breaking mode is irrelevant to every statement
  proved below).
* `pd.to_numeric`/`astype('Int64')` nullable page numbers are `Option ℕ`.
* Timestamps (ISO-8601 strings parsed with `datetime.fromisoformat`) are
  modelled as `ℚ` instants; parsing is order-preserving plumbing.
* The regular expressions of the source are modelled character by
  character with Python `re` leftmost-search semantics, specialised to the
  two fixed patterns occurring in the code
  (`\[.*?(\d+)/(\d+).*?\]` and `\s*\[.*`).
-/

/-- Python's `\s` / `str.strip` whitespace class (ASCII part). -/
def pyIsSpace (c : Char) : Bool :=
  c = ' ' || c = '\t' || c = '\n' || c = '\r' || c = '\x0b' || c = '\x0c'

/-- Python's `\d` (ASCII digits `0`-`9`). -/
def isDigitCh (c : Char) : Bool :=
  decide (48 ≤ c.toNat ∧ c.toNat ≤ 57)

/-- Numeric value of a digit string, as read by `pd.to_numeric`. -/
def natOfDigits (ds : List Char) : ℕ :=
  ds.foldl (fun a c => 10 * a + (c.toNat - 48)) 0

/-- After the second captured digit run, the pattern `.*?\]` succeeds iff a
`]` occurs before any newline (`.` does not match `\n`). -/
def closeBR : List Char → Bool
  | [] => false
  | c :: rest => if c = ']' then true else if c = '\n' then false else closeBR rest

/-- Search for `.*?(\d+)/(\d+).*?\]` in the text following a `[`, in the
backtracking order of Python's `re` engine: the lazy `.*?` stops at each
position in turn (never crossing a newline), `(\d+)` is the maximal digit
run there, and failure moves the stop one character further. -/
def innerSearch : List Char → Option (ℕ × ℕ)
  | [] => none
  | c :: rest =>
    (if isDigitCh c then
      match (c :: rest).dropWhile isDigitCh with
      | '/' :: r2 =>
        let ds2 := r2.takeWhile isDigitCh
        if ds2.isEmpty then none
        else if closeBR (r2.dropWhile isDigitCh) then
          some (natOfDigits ((c :: rest).takeWhile isDigitCh), natOfDigits ds2)
        else none
      | _ => none
    else none).orElse
      (fun _ => if c = '\n' then none else innerSearch rest)

/-- Model of `Series.str.extract(r'\[.*?(\d+)/(\d+).*?\]')`: groups of the first
(leftmost) match of the page-marker pattern, `none` when there is no match. -/
def findPagePair : List Char → Option (ℕ × ℕ)
  | [] => none
  | c :: rest =>
    if c = '[' then (innerSearch rest).orElse (fun _ => findPagePair rest)
    else findPagePair rest

/-- Model of `Series.str.replace(r'\s*\[.*', '', regex=True)` as a single pass:
outside a match, characters are copied; at a `[` the whitespace run just
before it is dropped from the output and characters are skipped up to (not
including) the next newline, where scanning for further matches resumes.
`acc` holds the output built so far, reversed. -/
def rmBrAux : Bool → List Char → List Char → List Char
  | _, acc, [] => acc.reverse
  | true, acc, c :: rest =>
    if c = '\n' then rmBrAux false ('\n' :: acc) rest else rmBrAux true acc rest
  | false, acc, c :: rest =>
    if c = '[' then rmBrAux true (acc.dropWhile pyIsSpace) rest
    else rmBrAux false (c :: acc) rest

/-- Python `str.strip()`. -/
def pyStrip (l : List Char) : List Char :=
  ((l.dropWhile pyIsSpace).reverse.dropWhile pyIsSpace).reverse

/-- The `Book_Title` column: drop everything from the first bracket
(and the whitespace preceding it), then strip. -/
def bookTitleOf (title : List Char) : List Char :=
  pyStrip (rmBrAux false [] title)

/-- Model of `Current_Page.astype(str)` on the nullable page column: decimal digits
for a present page, the string `<NA>` for a missing one. -/
def pageKeyChars : Option ℕ → List Char
  | some n => Nat.toDigits 10 n
  | none => '<' :: 'N' :: 'A' :: '>' :: []

/-- The merge key built at line 143: `Book_Title + "-" + str(Current_Page)`. -/
def mkKey (t : List Char) (p : Option ℕ) : List Char :=
  t ++ '-' :: pageKeyChars p

/-- One row of a raw snapshot CSV (`title, duration, timestamp`). -/
structure RawRow where
  title : List Char
  duration : ℚ
  timestamp : List Char
deriving DecidableEq

/-- One row of the cleaned per-file table built by `_clean_and_prepare_file`
(columns `key, Book_Title, Current_Page, Total_Pages, Duration_min`). -/
structure CleanRow where
  key : List Char
  bookTitle : List Char
  currentPage : Option ℕ
  totalPages : Option ℕ
  durationMin : ℚ
deriving DecidableEq

/-- Model of `_clean_and_prepare_file`, per row: minutes, page extraction, title,
and merge key. -/
def cleanRow (r : RawRow) : CleanRow :=
  let p := findPagePair r.title
  let bt := bookTitleOf r.title
  let cp := p.map Prod.fst
  ⟨mkKey bt cp, bt, cp, p.map Prod.snd, r.duration / 60⟩

/-- Model of `_clean_and_prepare_file` over a whole file. -/
def cleanFile (rows : List RawRow) : List CleanRow :=
  rows.map cleanRow

/-- Model of `Series.round(2)`. -/
def round2 (q : ℚ) : ℚ :=
  ((⌊q * 100 + 1 / 2⌋ : ℤ) : ℚ) / 100

/-- The left merge of `calculate_delta_activity` (line 161): each final row
paired with the `Duration_min_Start` of every initial row sharing its key,
or with `0` (the `fillna(0)`) when no initial row has the key. -/
def mergedRows (initF finF : List RawRow) : List (CleanRow × ℚ) :=
  (cleanFile finF).flatMap (fun e =>
    let ms := (cleanFile initF).filter (fun s => decide (s.key = e.key))
    if ms.isEmpty then [(e, 0)] else ms.map (fun s => (e, s.durationMin)))

/-- The `Duration_Delta_min` column: final minus (filled) initial minutes. -/
def deltaRows (initF finF : List RawRow) : List (CleanRow × ℚ) :=
  (mergedRows initF finF).map (fun p => (p.1, p.1.durationMin - p.2))

/-- Model of the filter `df_merged[df_merged['Duration_Delta_min'] > 0]`. -/
def sessionRows (initF finF : List RawRow) : List (CleanRow × ℚ) :=
  (deltaRows initF finF).filter (fun p => decide (0 < p.2))

/-- One row of the cleaned/delta output CSV
(`Book_Title, Current_Page, Total_Pages, Duration_min`). -/
structure OutRow where
  bookTitle : List Char
  currentPage : Option ℕ
  totalPages : Option ℕ
  durationMin : ℚ
deriving DecidableEq

/-- Column selection and 2-decimal rounding of a surviving delta row. -/
def formatOut (p : CleanRow × ℚ) : OutRow :=
  ⟨p.1.bookTitle, p.1.currentPage, p.1.totalPages, round2 p.2⟩

/-- Lexicographic string order on code points (Python `<` on `str`,
pandas object-column sort order). -/
def listCharLe : List Char → List Char → Bool
  | [], _ => true
  | _ :: _, [] => false
  | a :: as, b :: bs =>
    if a.toNat < b.toNat then true
    else if b.toNat < a.toNat then false
    else listCharLe as bs

/-- Nullable-page sort order: `sort_values` puts `<NA>` last. -/
def pageLe : Option ℕ → Option ℕ → Bool
  | some m, some n => decide (m ≤ n)
  | some _, none => true
  | none, some _ => false
  | none, none => true

/-- Comparison used by `sort_values(by=['Book_Title', 'Current_Page'])`. -/
def rowLe (x y : OutRow) : Bool :=
  if x.bookTitle = y.bookTitle then pageLe x.currentPage y.currentPage
  else listCharLe x.bookTitle y.bookTitle

/-- Insert into a sorted list (model of sorting; the claims depend only on
sortedness and membership, not on tie order). -/
def insertLe {α : Type} (le : α → α → Bool) (x : α) : List α → List α
  | [] => [x]
  | y :: rest => if le x y then x :: y :: rest else y :: insertLe le x rest

/-- Insertion sort by a boolean comparison. -/
def sortLe {α : Type} (le : α → α → Bool) : List α → List α
  | [] => []
  | x :: rest => insertLe le x (sortLe le rest)

/-- Model of `calculate_delta_activity`: clean both snapshots, left-merge on the key,
delta, keep strictly positive deltas, round to 2 decimals, sort by
(Book_Title, Current_Page). -/
def calculateDeltaActivity (initF finF : List RawRow) : List OutRow :=
  sortLe rowLe ((sessionRows initF finF).map formatOut)

/-- Model of `clean_and_save_full_data`, per row: same parsing, unrounded minutes,
no row ever dropped. -/
def cleanFullRow (r : RawRow) : OutRow :=
  let p := findPagePair r.title
  ⟨bookTitleOf r.title, p.map Prod.fst, p.map Prod.snd, r.duration / 60⟩

/-- Model of `clean_and_save_full_data` over a whole file (full mode). -/
def cleanFullData (rows : List RawRow) : List OutRow :=
  rows.map cleanFullRow

/-- A window-focus event as consumed by `fetch_and_save_raw_data`:
`data.app` and `data.title` may be absent (`dict.get`). -/
structure WindowEvent where
  timestamp : ℚ
  duration : ℚ
  app : Option (List Char)
  title : Option (List Char)
deriving DecidableEq

/-- The tracked reader application identifier. -/
def zathuraApp : List Char :=
  ("org.pwmt.zathura").data

/-- The linear scan over `non_afk_intervals` with the closed test
`start <= event_time <= end`. -/
def inPresence (ivs : List (ℚ × ℚ)) (t : ℚ) : Bool :=
  ivs.any (fun iv => decide (iv.1 ≤ t) && decide (t ≤ iv.2))

/-- The `zathura_events` filter (lines 65-75): app match, strictly positive
duration, and timestamp inside at least one presence interval. -/
def filterEvents (evs : List WindowEvent) (ivs : List (ℚ × ℚ)) : List WindowEvent :=
  evs.filter (fun e =>
    decide (e.app = some zathuraApp) && decide (0 < e.duration)
      && inPresence ivs e.timestamp)

/-- One entry of the `grouped_activity` mapping: accumulated duration and
the representative (first-seen) timestamp for one raw title. -/
structure GroupEntry where
  title : List Char
  duration : ℚ
  timestamp : ℚ
deriving DecidableEq

/-- Dictionary lookup by raw title. -/
def lookupTitle (t : List Char) : List GroupEntry → Option GroupEntry
  | [] => none
  | en :: rest => if en.title = t then some en else lookupTitle t rest

/-- Model of `grouped_activity[title]['duration'] += duration` on the entry of one
title, leaving every other entry unchanged. -/
def bumpTitle (u : List Char) (d : ℚ) (en : GroupEntry) : GroupEntry :=
  if en.title = u then ⟨en.title, en.duration + d, en.timestamp⟩ else en

/-- One step of the grouping loop (lines 80-88): events with a missing or
empty title are skipped; a new title is appended with its timestamp; the
duration of a known title is accumulated. -/
def addEvent (acc : List GroupEntry) (e : WindowEvent) : List GroupEntry :=
  match e.title with
  | none => acc
  | some t =>
    if t.isEmpty then acc
    else
      match lookupTitle t acc with
      | none => acc ++ [⟨t, e.duration, e.timestamp⟩]
      | some _ => acc.map (bumpTitle t e.duration)

/-- The Activity Consolidator: filter, then accumulate per raw title.
(The subsequent sort of the raw export by descending duration is a
presentation step and does not change the mapping.) -/
def consolidate (evs : List WindowEvent) (ivs : List (ℚ × ℚ)) : List GroupEntry :=
  (filterEvents evs ivs).foldl addEvent []

/-- Model of `Series.unique()`: distinct values in order of first appearance. -/
def firstDedup {α : Type} [DecidableEq α] (l : List α) : List α :=
  l.foldl (fun acc x => if x ∈ acc then acc else acc ++ [x]) []

/-- Boolean `≤` on page numbers, for the groupby key sort. -/
def natLeB (m n : ℕ) : Bool :=
  decide (m ≤ n)

/-- Rows whose `Book_Title` matches the (case-insensitive, regex) pattern;
the pattern matcher itself is an external collaborator, taken as an
arbitrary boolean predicate on titles. -/
def matchingRows (df : List OutRow) (pat : List Char → Bool) : List OutRow :=
  df.filter (fun r => pat r.bookTitle)

/-- Model of `matching_df['Book_Title'].unique()`. -/
def uniqueTitles (df : List OutRow) (pat : List Char → Bool) : List (List Char) :=
  firstDedup ((matchingRows df pat).map (fun r => r.bookTitle))

/-- Model of `(Current_Page >= start) & (Current_Page <= end)`; a null page compares
to `NA`, which boolean indexing treats as `False`. -/
def inPageRange (a b : ℕ) (r : OutRow) : Bool :=
  match r.currentPage with
  | some p => decide (a ≤ p) && decide (p ≤ b)
  | none => false

/-- The rows analysed when exactly one title matches: pattern filter then
inclusive page-range filter. -/
def rangeRows (df : List OutRow) (pat : List Char → Bool) (a b : ℕ) : List OutRow :=
  (matchingRows df pat).filter (inPageRange a b)

/-- Total duration attributed to one page among the given rows. -/
def pageSum (rows : List OutRow) (p : ℕ) : ℚ :=
  ((rows.filter (fun r => decide (r.currentPage = some p))).map
    (fun r => r.durationMin)).sum

/-- Model of `groupby('Current_Page')['Duration_min'].sum()`: one row per distinct
page, keys sorted ascending. -/
def aggSeries (rows : List OutRow) : List (ℕ × ℚ) :=
  (sortLe natLeB (firstDedup (rows.filterMap (fun r => r.currentPage)))).map
    (fun p => (p, pageSum rows p))

/-- The observable outcome of `analyze_and_plot` (lines 255-290). -/
inductive AnalysisOutcome where
  | notFound : AnalysisOutcome
  | ambiguous : List (List Char) → AnalysisOutcome
  | noData : List Char → AnalysisOutcome
  | result : List Char → List (ℕ × ℚ) → ℚ → ℚ → AnalysisOutcome
deriving DecidableEq

/-- Model of `analyze_and_plot` selection and aggregation: zero matching titles →
not found; more than one → ambiguous, listing the distinct matches; exactly
one → range filter, then either no data or the aggregated series with its
mean and total. -/
def analyzeOutcome (df : List OutRow) (pat : List Char → Bool) (a b : ℕ) :
    AnalysisOutcome :=
  match uniqueTitles df pat with
  | [] => .notFound
  | [t] =>
    let f := rangeRows df pat a b
    if f.isEmpty then .noData t
    else
      let agg := aggSeries f
      .result t agg ((agg.map Prod.snd).sum / (agg.length : ℚ))
        ((agg.map Prod.snd).sum)
  | u => .ambiguous u

/-- Process exit status for each outcome: `sys.exit(0)` on the non-error
"not found" / "no data" outcomes and on success, `sys.exit(1)` on
ambiguity. -/
def outcomeExitCode : AnalysisOutcome → ℕ
  | .notFound => 0
  | .ambiguous _ => 1
  | .noData _ => 0
  | .result _ _ _ _ => 0

/-! ### Generic list lemmas: insertion sort and `unique()` -/

theorem mem_insertLe {α : Type} (le : α → α → Bool) (x z : α) (l : List α) :
    z ∈ insertLe le x l ↔ z = x ∨ z ∈ l := by
  induction l with
  | nil => simp [insertLe]
  | cons y rest ih =>
    simp only [insertLe]
    by_cases h : le x y = true
    · rw [if_pos h]
      simp only [List.mem_cons]
    · rw [if_neg h]
      simp only [List.mem_cons, ih]
      tauto

theorem insertLe_perm {α : Type} (le : α → α → Bool) (x : α) (l : List α) :
    (insertLe le x l).Perm (x :: l) := by
  induction l with
  | nil => exact List.Perm.refl _
  | cons y rest ih =>
    simp only [insertLe]
    by_cases h : le x y = true
    · rw [if_pos h]
    · rw [if_neg h]
      exact ((ih.cons y).trans (List.Perm.swap x y rest))

theorem sortLe_perm {α : Type} (le : α → α → Bool) (l : List α) :
    (sortLe le l).Perm l := by
  induction l with
  | nil => exact List.Perm.refl _
  | cons x rest ih =>
    exact (insertLe_perm le x (sortLe le rest)).trans (ih.cons x)

theorem mem_sortLe {α : Type} (le : α → α → Bool) (z : α) (l : List α) :
    z ∈ sortLe le l ↔ z ∈ l :=
  (sortLe_perm le l).mem_iff

theorem pairwise_insertLe {α : Type} (le : α → α → Bool)
    (htot : ∀ a b, le a b = false → le b a = true)
    (htr : ∀ a b c, le a b = true → le b c = true → le a c = true)
    (x : α) (l : List α) (hl : l.Pairwise (fun a b => le a b = true)) :
    (insertLe le x l).Pairwise (fun a b => le a b = true) := by
  induction l with
  | nil => simp [insertLe]
  | cons y rest ih =>
    rw [List.pairwise_cons] at hl
    obtain ⟨hy, hrest⟩ := hl
    simp only [insertLe]
    by_cases h : le x y = true
    · rw [if_pos h]
      rw [List.pairwise_cons]
      refine ⟨?_, List.pairwise_cons.mpr ⟨hy, hrest⟩⟩
      intro z hz
      rcases List.mem_cons.mp hz with rfl | hz
      · exact h
      · exact htr x y z h (hy z hz)
    · rw [if_neg h]
      rw [List.pairwise_cons]
      refine ⟨?_, ih hrest⟩
      intro z hz
      rcases (mem_insertLe le x z rest).mp hz with h' | hz
      · rw [h']
        exact htot x y (Bool.eq_false_iff.mpr h)
      · exact hy z hz

theorem pairwise_sortLe {α : Type} (le : α → α → Bool)
    (htot : ∀ a b, le a b = false → le b a = true)
    (htr : ∀ a b c, le a b = true → le b c = true → le a c = true)
    (l : List α) :
    (sortLe le l).Pairwise (fun a b => le a b = true) := by
  induction l with
  | nil => simp [sortLe]
  | cons x rest ih => exact pairwise_insertLe le htot htr x (sortLe le rest) ih

theorem mem_firstDedup_aux {α : Type} [DecidableEq α] (l acc : List α) (x : α) :
    x ∈ l.foldl (fun a y => if y ∈ a then a else a ++ [y]) acc ↔ x ∈ acc ∨ x ∈ l := by
  induction l generalizing acc with
  | nil => simp
  | cons y rest ih =>
    simp only [List.foldl_cons]
    by_cases hy : y ∈ acc
    · rw [if_pos hy, ih]
      constructor
      · tauto
      · rintro (h | h)
        · exact Or.inl h
        · rcases List.mem_cons.mp h with rfl | h
          · exact Or.inl hy
          · exact Or.inr h
    · rw [if_neg hy, ih]
      simp only [List.mem_append, List.mem_singleton, List.mem_cons]
      tauto

theorem mem_firstDedup {α : Type} [DecidableEq α] (l : List α) (x : α) :
    x ∈ firstDedup l ↔ x ∈ l := by
  rw [firstDedup, mem_firstDedup_aux]
  simp

theorem nodup_firstDedup_aux {α : Type} [DecidableEq α] (l acc : List α)
    (h : acc.Nodup) :
    (l.foldl (fun a y => if y ∈ a then a else a ++ [y]) acc).Nodup := by
  induction l generalizing acc with
  | nil => exact h
  | cons y rest ih =>
    simp only [List.foldl_cons]
    by_cases hy : y ∈ acc
    · rw [if_pos hy]; exact ih acc h
    · rw [if_neg hy]
      exact ih (acc ++ [y]) (by simp [List.nodup_append, h, hy])

theorem nodup_firstDedup {α : Type} [DecidableEq α] (l : List α) :
    (firstDedup l).Nodup :=
  nodup_firstDedup_aux l [] List.nodup_nil

/-! ### The sort comparison is total and transitive -/

theorem charEq_of_toNat_eq {a b : Char} (h : a.toNat = b.toNat) : a = b :=
  Char.eq_of_val_eq (UInt32.ext h)

theorem listCharLe_total : ∀ a b, listCharLe a b = false → listCharLe b a = true := by
  intro a
  induction a with
  | nil => intro b h; simp [listCharLe] at h
  | cons c as ih =>
    intro b h
    cases b with
    | nil => simp [listCharLe]
    | cons d bs =>
      simp only [listCharLe] at h ⊢
      by_cases h1 : c.toNat < d.toNat
      · rw [if_pos h1] at h; simp at h
      · rw [if_neg h1] at h
        by_cases h2 : d.toNat < c.toNat
        · rw [if_pos h2]
        · rw [if_neg h2] at h
          rw [if_neg h2, if_neg h1]
          exact ih bs h

theorem listCharLe_trans :
    ∀ a b c, listCharLe a b = true → listCharLe b c = true → listCharLe a c = true := by
  intro a
  induction a with
  | nil => intro b c _ _; simp [listCharLe]
  | cons x as ih =>
    intro b c hab hbc
    cases b with
    | nil => simp [listCharLe] at hab
    | cons y bs =>
      cases c with
      | nil => simp [listCharLe] at hbc
      | cons z cs =>
        simp only [listCharLe] at hab hbc ⊢
        by_cases h1 : x.toNat < y.toNat
        · by_cases h2 : y.toNat < z.toNat
          · rw [if_pos (by omega)]
          · rw [if_neg h2] at hbc
            by_cases h3 : z.toNat < y.toNat
            · rw [if_pos h3] at hbc; simp at hbc
            · rw [if_pos (by omega)]
        · rw [if_neg h1] at hab
          by_cases h1' : y.toNat < x.toNat
          · rw [if_pos h1'] at hab; simp at hab
          · rw [if_neg h1'] at hab
            by_cases h2 : y.toNat < z.toNat
            · rw [if_pos (by omega)]
            · rw [if_neg h2] at hbc
              by_cases h3 : z.toNat < y.toNat
              · rw [if_pos h3] at hbc; simp at hbc
              · rw [if_neg h3] at hbc
                rw [if_neg (by omega : ¬x.toNat < z.toNat),
                  if_neg (by omega : ¬z.toNat < x.toNat)]
                exact ih bs cs hab hbc

theorem listCharLe_antisymm :
    ∀ a b, listCharLe a b = true → listCharLe b a = true → a = b := by
  intro a
  induction a with
  | nil =>
    intro b _ hba
    cases b with
    | nil => rfl
    | cons d bs => simp [listCharLe] at hba
  | cons c as ih =>
    intro b hab hba
    cases b with
    | nil => simp [listCharLe] at hab
    | cons d bs =>
      simp only [listCharLe] at hab hba
      by_cases h1 : c.toNat < d.toNat
      · rw [if_neg (by omega : ¬d.toNat < c.toNat), if_pos h1] at hba; simp at hba
      · rw [if_neg h1] at hab
        by_cases h2 : d.toNat < c.toNat
        · rw [if_pos h2] at hab; simp at hab
        · rw [if_neg h2] at hab
          rw [if_neg (by omega : ¬d.toNat < c.toNat), if_neg (by omega : ¬c.toNat < d.toNat)] at hba
          rw [charEq_of_toNat_eq (by omega : c.toNat = d.toNat), ih bs hab hba]

theorem pageLe_total : ∀ p q, pageLe p q = false → pageLe q p = true := by
  intro p q h
  cases p <;> cases q <;> simp [pageLe] at h ⊢ <;> omega

theorem pageLe_trans :
    ∀ p q r, pageLe p q = true → pageLe q r = true → pageLe p r = true := by
  intro p q r hpq hqr
  cases p <;> cases q <;> cases r <;> simp [pageLe] at hpq hqr ⊢ <;> omega

theorem rowLe_total : ∀ x y, rowLe x y = false → rowLe y x = true := by
  intro x y h
  unfold rowLe at h ⊢
  by_cases ht : x.bookTitle = y.bookTitle
  · rw [if_pos ht] at h
    rw [if_pos ht.symm]
    exact pageLe_total _ _ h
  · rw [if_neg ht] at h
    rw [if_neg (fun hh => ht hh.symm)]
    exact listCharLe_total _ _ h

theorem rowLe_trans :
    ∀ x y z, rowLe x y = true → rowLe y z = true → rowLe x z = true := by
  intro x y z hxy hyz
  unfold rowLe at hxy hyz ⊢
  by_cases h1 : x.bookTitle = y.bookTitle
  · rw [if_pos h1] at hxy
    by_cases h2 : y.bookTitle = z.bookTitle
    · rw [if_pos h2] at hyz
      rw [if_pos (h1.trans h2)]
      exact pageLe_trans _ _ _ hxy hyz
    · rw [if_neg h2] at hyz
      rw [if_neg (fun hh => h2 (h1 ▸ hh)), h1]
      exact hyz
  · rw [if_neg h1] at hxy
    by_cases h2 : y.bookTitle = z.bookTitle
    · rw [if_neg (fun hh => h1 (hh.trans h2.symm))]
      rw [← h2]
      exact hxy
    · rw [if_neg h2] at hyz
      by_cases h3 : x.bookTitle = z.bookTitle
      · exfalso
        apply h1
        apply listCharLe_antisymm _ _ hxy
        rw [← h3] at hyz
        exact hyz
      · rw [if_neg h3]
        exact listCharLe_trans _ _ _ hxy hyz

/-! ### The merge key `Book_Title + "-" + str(Current_Page)` is injective
(the page part never contains the separator, so the key determines the
(title, page) pair; this settles the collision worry attached to the
synthesized string key) -/

theorem toDigitsCore_succ_eq (f n : ℕ) (acc : List Char) :
    Nat.toDigitsCore 10 (f + 1) n acc =
      if n / 10 = 0 then Nat.digitChar (n % 10) :: acc
      else Nat.toDigitsCore 10 f (n / 10) (Nat.digitChar (n % 10) :: acc) := rfl

theorem digitChar_toNat {m : ℕ} (h : m < 10) : (Nat.digitChar m).toNat = 48 + m := by
  interval_cases m <;> decide

theorem digitChar_ne_dash {m : ℕ} (h : m < 10) : Nat.digitChar m ≠ '-' := by
  interval_cases m <;> decide

theorem digitChar_ne_langle {m : ℕ} (h : m < 10) : Nat.digitChar m ≠ '<' := by
  interval_cases m <;> decide

theorem mem_toDigitsCore (f : ℕ) : ∀ (n : ℕ) (acc : List Char) (c : Char),
    c ∈ Nat.toDigitsCore 10 f n acc → c ∈ acc ∨ ∃ m, m < 10 ∧ c = Nat.digitChar m := by
  induction f with
  | zero => intro n acc c h; exact Or.inl h
  | succ f ih =>
    intro n acc c h
    rw [toDigitsCore_succ_eq] at h
    by_cases h0 : n / 10 = 0
    · rw [if_pos h0] at h
      rcases List.mem_cons.mp h with h' | h'
      · exact Or.inr ⟨n % 10, Nat.mod_lt _ (by norm_num), h'⟩
      · exact Or.inl h'
    · rw [if_neg h0] at h
      rcases ih (n / 10) (Nat.digitChar (n % 10) :: acc) c h with h' | h'
      · rcases List.mem_cons.mp h' with h'' | h''
        · exact Or.inr ⟨n % 10, Nat.mod_lt _ (by norm_num), h''⟩
        · exact Or.inl h''
      · exact Or.inr h'

theorem toDigitsCore_foldl (f : ℕ) : ∀ (n : ℕ) (acc : List Char) (a : ℕ), n ≤ f →
    ∃ k : ℕ, List.foldl (fun a c => 10 * a + (c.toNat - 48)) a
        (Nat.toDigitsCore 10 (f + 1) n acc) =
      List.foldl (fun a c => 10 * a + (c.toNat - 48)) (a * 10 ^ k + n) acc := by
  induction f with
  | zero =>
    intro n acc a hn
    have h0 : n = 0 := Nat.le_zero.mp hn
    subst h0
    rw [toDigitsCore_succ_eq, if_pos (by norm_num)]
    refine ⟨1, ?_⟩
    simp only [List.foldl_cons]
    congr 1
    rw [digitChar_toNat (by omega)]
    omega
  | succ f ih =>
    intro n acc a hn
    rw [toDigitsCore_succ_eq]
    by_cases h0 : n / 10 = 0
    · rw [if_pos h0]
      refine ⟨1, ?_⟩
      simp only [List.foldl_cons]
      congr 1
      rw [digitChar_toNat (by omega)]
      omega
    · rw [if_neg h0]
      obtain ⟨k, hk⟩ := ih (n / 10) (Nat.digitChar (n % 10) :: acc) a (by omega)
      refine ⟨k + 1, ?_⟩
      rw [hk]
      simp only [List.foldl_cons]
      congr 1
      rw [digitChar_toNat (by omega)]
      have h48 : 48 + n % 10 - 48 = n % 10 := by omega
      rw [h48]
      have hdm : 10 * (n / 10) + n % 10 = n := Nat.div_add_mod n 10
      calc 10 * (a * 10 ^ k + n / 10) + n % 10
          = a * (10 ^ k * 10) + (10 * (n / 10) + n % 10) := by ring
        _ = a * 10 ^ (k + 1) + n := by rw [hdm, pow_succ]

theorem natOfDigits_toDigits (n : ℕ) : natOfDigits (Nat.toDigits 10 n) = n := by
  obtain ⟨k, hk⟩ := toDigitsCore_foldl n n [] 0 le_rfl
  unfold natOfDigits
  rw [show Nat.toDigits 10 n = Nat.toDigitsCore 10 (n + 1) n [] from rfl, hk]
  simp

theorem toDigits_inj {m n : ℕ} (h : Nat.toDigits 10 m = Nat.toDigits 10 n) : m = n := by
  have hm := natOfDigits_toDigits m
  rw [h, natOfDigits_toDigits] at hm
  exact hm.symm

theorem dash_not_mem_toDigits (n : ℕ) : '-' ∉ Nat.toDigits 10 n := by
  intro h
  rcases mem_toDigitsCore (n + 1) n [] '-' h with h' | ⟨m, hm, he⟩
  · simp at h'
  · exact digitChar_ne_dash hm he.symm

theorem dash_not_mem_pageKeyChars (p : Option ℕ) : '-' ∉ pageKeyChars p := by
  cases p with
  | none => decide
  | some n => exact dash_not_mem_toDigits n

theorem pageKeyChars_inj {p q : Option ℕ} (h : pageKeyChars p = pageKeyChars q) :
    p = q := by
  cases p with
  | none =>
    cases q with
    | none => rfl
    | some n =>
      exfalso
      have hmem : '<' ∈ Nat.toDigits 10 n := by
        rw [show Nat.toDigits 10 n = pageKeyChars (some n) from rfl, ← h]
        exact List.mem_cons_self _ _
      rcases mem_toDigitsCore (n + 1) n [] '<' hmem with h' | ⟨m, hm, he⟩
      · simp at h'
      · exact digitChar_ne_langle hm he.symm
  | some n =>
    cases q with
    | none =>
      exfalso
      have hmem : '<' ∈ Nat.toDigits 10 n := by
        rw [show Nat.toDigits 10 n = pageKeyChars (some n) from rfl, h]
        exact List.mem_cons_self _ _
      rcases mem_toDigitsCore (n + 1) n [] '<' hmem with h' | ⟨m, hm, he⟩
      · simp at h'
      · exact digitChar_ne_langle hm he.symm
    | some n' =>
      rw [toDigits_inj (show Nat.toDigits 10 n = Nat.toDigits 10 n' from h)]

theorem noDash_append_inj : ∀ (l1 : List Char) {l2 r1 r2 : List Char},
    '-' ∉ r1 → '-' ∉ r2 → l1 ++ '-' :: r1 = l2 ++ '-' :: r2 → l1 = l2 ∧ r1 = r2 := by
  intro l1
  induction l1 with
  | nil =>
    intro l2 r1 r2 h1 h2 he
    cases l2 with
    | nil =>
      simp only [List.nil_append] at he
      injection he with _ ht
      exact ⟨rfl, ht⟩
    | cons c l2' =>
      simp only [List.nil_append, List.cons_append] at he
      injection he with hc ht
      exfalso
      apply h1
      rw [ht]
      exact List.mem_append_right _ (List.mem_cons_self _ _)
  | cons c l1' ih =>
    intro l2 r1 r2 h1 h2 he
    cases l2 with
    | nil =>
      simp only [List.cons_append, List.nil_append] at he
      injection he with hc ht
      exfalso
      apply h2
      rw [← ht]
      exact List.mem_append_right _ (List.mem_cons_self _ _)
    | cons d l2' =>
      simp only [List.cons_append] at he
      injection he with hc ht
      obtain ⟨hl, hr⟩ := ih h1 h2 ht
      exact ⟨by rw [hc, hl], hr⟩

theorem mkKey_inj {t1 t2 : List Char} {p1 p2 : Option ℕ}
    (h : mkKey t1 p1 = mkKey t2 p2) : t1 = t2 ∧ p1 = p2 := by
  unfold mkKey at h
  obtain ⟨ht, hp⟩ :=
    noDash_append_inj t1 (dash_not_mem_pageKeyChars p1) (dash_not_mem_pageKeyChars p2) h
  exact ⟨ht, pageKeyChars_inj hp⟩

/-! ### Characterising the cleaned tables and the left merge -/

theorem mem_cleanFile_key {l : List RawRow} {s : CleanRow} (hs : s ∈ cleanFile l) :
    s.key = mkKey s.bookTitle s.currentPage := by
  obtain ⟨r, _, h⟩ := List.mem_map.mp hs
  subst h
  rfl

theorem key_eq_pair {l1 l2 : List RawRow} {s e : CleanRow}
    (hs : s ∈ cleanFile l1) (he : e ∈ cleanFile l2) (hk : s.key = e.key) :
    s.bookTitle = e.bookTitle ∧ s.currentPage = e.currentPage := by
  rw [mem_cleanFile_key hs, mem_cleanFile_key he] at hk
  exact mkKey_inj hk

theorem cleanFile_pair_unique {l : List RawRow}
    (h : (cleanFile l).Pairwise
      (fun a b => ¬(a.bookTitle = b.bookTitle ∧ a.currentPage = b.currentPage)))
    {s s' : CleanRow} (hs : s ∈ cleanFile l) (hs' : s' ∈ cleanFile l)
    (hbt : s.bookTitle = s'.bookTitle) (hcp : s.currentPage = s'.currentPage) :
    s = s' := by
  by_contra hne
  have hsym : Symmetric
      (fun a b : CleanRow =>
        ¬(a.bookTitle = b.bookTitle ∧ a.currentPage = b.currentPage)) := by
    intro a b hab hba
    exact hab ⟨hba.1.symm, hba.2.symm⟩
  exact (h.forall hsym hs hs' hne) ⟨hbt, hcp⟩

theorem mem_mergedRows {initF finF : List RawRow} {p : CleanRow × ℚ} :
    p ∈ mergedRows initF finF ↔
      p.1 ∈ cleanFile finF ∧
      (((cleanFile initF).filter (fun s => decide (s.key = p.1.key)) = [] ∧ p.2 = 0) ∨
       ∃ s ∈ (cleanFile initF).filter (fun s => decide (s.key = p.1.key)),
         p.2 = s.durationMin) := by
  unfold mergedRows
  rw [List.mem_flatMap]
  constructor
  · rintro ⟨e, he, hp⟩
    simp only at hp
    by_cases hempty :
        ((cleanFile initF).filter (fun s => decide (s.key = e.key))).isEmpty = true
    · rw [if_pos hempty] at hp
      rcases List.mem_singleton.mp hp with rfl
      exact ⟨he, Or.inl ⟨List.isEmpty_iff.mp hempty, rfl⟩⟩
    · rw [if_neg hempty] at hp
      obtain ⟨s, hs, heq⟩ := List.mem_map.mp hp
      rcases heq with rfl
      exact ⟨he, Or.inr ⟨s, hs, rfl⟩⟩
  · rintro ⟨h1, ⟨hnil, h2⟩ | ⟨s, hs, h2⟩⟩
    · refine ⟨p.1, h1, ?_⟩
      simp only
      rw [if_pos (List.isEmpty_iff.mpr hnil)]
      rw [List.mem_singleton]
      exact Prod.ext rfl h2
    · refine ⟨p.1, h1, ?_⟩
      simp only
      rw [if_neg (by rw [List.isEmpty_iff]; exact List.ne_nil_of_mem hs)]
      exact List.mem_map.mpr ⟨s, hs, Prod.ext rfl h2.symm⟩

theorem mem_deltaRows {initF finF : List RawRow} {p : CleanRow × ℚ} :
    p ∈ deltaRows initF finF ↔
      ∃ q : ℚ, (p.1, q) ∈ mergedRows initF finF ∧ p.2 = p.1.durationMin - q := by
  unfold deltaRows
  rw [List.mem_map]
  constructor
  · rintro ⟨x, hx, hmap⟩
    refine ⟨x.2, ?_, ?_⟩
    · rw [← hmap]
      exact hx
    · rw [← hmap]
  · rintro ⟨q, hq, hp2⟩
    exact ⟨(p.1, q), hq, Prod.ext rfl hp2.symm⟩

/-- C1 (Delta Reconciler correctness): over snapshot tables that are, as
the data model requires, uniquely keyed by (book title, current page), every
final-table row whose key also occurs in the initial table gets reconciled
delta `final − initial`, and every final-table row whose key is absent from
the initial table gets its final duration unchanged (zero prior duration). -/
theorem C1_delta_reconciler_correct (initF finF : List RawRow)
    (hI : (cleanFile initF).Pairwise
      (fun a b => ¬(a.bookTitle = b.bookTitle ∧ a.currentPage = b.currentPage))) :
    (∀ e ∈ cleanFile finF, ∀ s ∈ cleanFile initF,
      e.bookTitle = s.bookTitle → e.currentPage = s.currentPage →
      (e, e.durationMin - s.durationMin) ∈ deltaRows initF finF ∧
      ∀ d : ℚ, (e, d) ∈ deltaRows initF finF → d = e.durationMin - s.durationMin) ∧
    (∀ e ∈ cleanFile finF,
      (∀ s ∈ cleanFile initF,
        ¬(e.bookTitle = s.bookTitle ∧ e.currentPage = s.currentPage)) →
      (e, e.durationMin) ∈ deltaRows initF finF ∧
      ∀ d : ℚ, (e, d) ∈ deltaRows initF finF → d = e.durationMin) := by
  constructor
  · intro e he s hs hbt hcp
    have hks : s.key = e.key := by
      rw [mem_cleanFile_key hs, mem_cleanFile_key he, hbt, hcp]
    have hsmem : s ∈ (cleanFile initF).filter (fun s' => decide (s'.key = e.key)) :=
      List.mem_filter.mpr ⟨hs, by simp [hks]⟩
    constructor
    · exact mem_deltaRows.mpr
        ⟨s.durationMin, mem_mergedRows.mpr ⟨he, Or.inr ⟨s, hsmem, rfl⟩⟩, rfl⟩
    · intro d hd
      obtain ⟨q, hq, hd2⟩ := mem_deltaRows.mp hd
      obtain ⟨_, hbranch⟩ := mem_mergedRows.mp hq
      rcases hbranch with ⟨hnil, hq0⟩ | ⟨s', hs', hq'⟩
      · rw [hnil] at hsmem
        exact absurd hsmem (List.not_mem_nil s)
      · obtain ⟨hs'I, hdec⟩ := List.mem_filter.mp hs'
        have hk' : s'.key = s.key := by
          have : s'.key = e.key := by simpa using hdec
          rw [this, hks]
        obtain ⟨h1, h2⟩ := key_eq_pair hs'I hs hk'
        have hss : s' = s := cleanFile_pair_unique hI hs'I hs h1 h2
        have hq2 : q = s'.durationMin := hq'
        have hd3 : d = e.durationMin - q := hd2
        rw [hd3, hq2, hss]
  · intro e he hnone
    have hnil : (cleanFile initF).filter (fun s' => decide (s'.key = e.key)) = [] := by
      rw [List.eq_nil_iff_forall_not_mem]
      intro s hsf
      obtain ⟨hsI, hdec⟩ := List.mem_filter.mp hsf
      have hk : s.key = e.key := by simpa using hdec
      obtain ⟨h1, h2⟩ := key_eq_pair hsI he hk
      exact hnone s hsI ⟨h1.symm, h2.symm⟩
    constructor
    · exact mem_deltaRows.mpr
        ⟨0, mem_mergedRows.mpr ⟨he, Or.inl ⟨hnil, rfl⟩⟩, (sub_zero _).symm⟩
    · intro d hd
      obtain ⟨q, hq, hd2⟩ := mem_deltaRows.mp hd
      obtain ⟨_, hbranch⟩ := mem_mergedRows.mp hq
      rcases hbranch with ⟨_, hq0⟩ | ⟨s', hs', _⟩
      · have hd3 : d = e.durationMin - q := hd2
        have hq1 : q = 0 := hq0
        rw [hd3, hq1, sub_zero]
      · rw [hnil] at hs'
        exact absurd hs' (List.not_mem_nil s')

/-- Witness for C1: a page present in both snapshots (120 s before, 300 s
after) is reconciled to `300/60 − 120/60` minutes. -/
theorem C1_delta_reconciler_correct_witness :
    (cleanRow ⟨("A [1/9]").data, 300, ("t").data⟩,
        (cleanRow ⟨("A [1/9]").data, 300, ("t").data⟩).durationMin -
          (cleanRow ⟨("A [1/9]").data, 120, ("t").data⟩).durationMin) ∈
      deltaRows [⟨("A [1/9]").data, 120, ("t").data⟩]
        [⟨("A [1/9]").data, 300, ("t").data⟩] := by
  have h := C1_delta_reconciler_correct
    [⟨("A [1/9]").data, 120, ("t").data⟩] [⟨("A [1/9]").data, 300, ("t").data⟩]
    (by simp [cleanFile])
  exact (h.1 (cleanRow ⟨("A [1/9]").data, 300, ("t").data⟩) (by simp [cleanFile])
    (cleanRow ⟨("A [1/9]").data, 120, ("t").data⟩) (by simp [cleanFile]) rfl rfl).1

theorem mem_sessionRows {initF finF : List RawRow} {p : CleanRow × ℚ} :
    p ∈ sessionRows initF finF ↔ p ∈ deltaRows initF finF ∧ 0 < p.2 := by
  unfold sessionRows
  rw [List.mem_filter]
  simp

theorem mem_calculateDelta {initF finF : List RawRow} {row : OutRow} :
    row ∈ calculateDeltaActivity initF finF ↔
      ∃ p ∈ sessionRows initF finF, row = formatOut p := by
  unfold calculateDeltaActivity
  rw [mem_sortLe, List.mem_map]
  constructor
  · rintro ⟨p, hp, he⟩
    exact ⟨p, hp, he.symm⟩
  · rintro ⟨p, hp, he⟩
    exact ⟨p, hp, he.symm⟩

/-! ### Concrete single-row evaluations of the delta pipeline -/

theorem sessionRows_single_pos (ri rf : RawRow)
    (hkey : (cleanRow ri).key = (cleanRow rf).key)
    (hpos : 0 < (cleanRow rf).durationMin - (cleanRow ri).durationMin) :
    sessionRows [ri] [rf] =
      [(cleanRow rf, (cleanRow rf).durationMin - (cleanRow ri).durationMin)] := by
  have hm : mergedRows [ri] [rf] = [(cleanRow rf, (cleanRow ri).durationMin)] := by
    unfold mergedRows
    rw [show cleanFile [rf] = [cleanRow rf] from rfl,
      show cleanFile [ri] = [cleanRow ri] from rfl]
    rw [List.flatMap_cons, List.flatMap_nil]
    have hf : List.filter (fun s => decide (s.key = (cleanRow rf).key)) [cleanRow ri] =
        [cleanRow ri] := by
      rw [List.filter_cons, if_pos (by simp [hkey]), List.filter_nil]
    simp only
    rw [hf]
    rfl
  have hd : deltaRows [ri] [rf] =
      [(cleanRow rf, (cleanRow rf).durationMin - (cleanRow ri).durationMin)] := by
    unfold deltaRows
    rw [hm]
    rfl
  unfold sessionRows
  rw [hd, List.filter_cons, if_pos (by simpa using hpos), List.filter_nil]

theorem calculateDelta_single_pos (ri rf : RawRow)
    (hkey : (cleanRow ri).key = (cleanRow rf).key)
    (hpos : 0 < (cleanRow rf).durationMin - (cleanRow ri).durationMin) :
    calculateDeltaActivity [ri] [rf] =
      [⟨(cleanRow rf).bookTitle, (cleanRow rf).currentPage, (cleanRow rf).totalPages,
        round2 ((cleanRow rf).durationMin - (cleanRow ri).durationMin)⟩] := by
  unfold calculateDeltaActivity
  rw [sessionRows_single_pos ri rf hkey hpos]
  rfl

theorem sessionRows_only_final (rf : RawRow)
    (hpos : 0 < (cleanRow rf).durationMin) :
    sessionRows [] [rf] = [(cleanRow rf, (cleanRow rf).durationMin)] := by
  have hm : mergedRows [] [rf] = [(cleanRow rf, 0)] := rfl
  have hd : deltaRows [] [rf] = [(cleanRow rf, (cleanRow rf).durationMin - 0)] := by
    unfold deltaRows
    rw [hm]
    rfl
  rw [sub_zero] at hd
  unfold sessionRows
  rw [hd, List.filter_cons, if_pos (by simpa using hpos), List.filter_nil]

theorem calculateDelta_only_final (rf : RawRow)
    (hpos : 0 < (cleanRow rf).durationMin) :
    calculateDeltaActivity [] [rf] =
      [⟨(cleanRow rf).bookTitle, (cleanRow rf).currentPage, (cleanRow rf).totalPages,
        round2 (cleanRow rf).durationMin⟩] := by
  unfold calculateDeltaActivity
  rw [sessionRows_only_final rf hpos]
  rfl

/-- C2 (amended): every surviving delta row has a strictly positive
*computed* delta (the `> 0` filter at line 175), every exported row arises
from such a positive delta, and a (title, page) key all of whose computed
deltas are `≤ 0` is absent from the output (dropped, not zero-filled).
(The exported duration itself is the delta rounded to 2 decimals, which can
round down to `0.00` for deltas below `0.005` minutes — see the
counterexample to the unamended claim.) -/
theorem C2_positive_delta_filter (initF finF : List RawRow) :
    (∀ p ∈ sessionRows initF finF, 0 < p.2) ∧
    (∀ row ∈ calculateDeltaActivity initF finF,
      ∃ p ∈ deltaRows initF finF, 0 < p.2 ∧ row = formatOut p) ∧
    (∀ (t : List Char) (cp : Option ℕ),
      (∀ p ∈ deltaRows initF finF,
        p.1.bookTitle = t → p.1.currentPage = cp → p.2 ≤ 0) →
      ∀ row ∈ calculateDeltaActivity initF finF,
        ¬(row.bookTitle = t ∧ row.currentPage = cp)) := by
  refine ⟨?_, ?_, ?_⟩
  · intro p hp
    exact (mem_sessionRows.mp hp).2
  · intro row hrow
    obtain ⟨p, hp, he⟩ := mem_calculateDelta.mp hrow
    obtain ⟨hpd, hppos⟩ := mem_sessionRows.mp hp
    exact ⟨p, hpd, hppos, he⟩
  · intro t cp hall row hrow hbad
    obtain ⟨p, hp, he⟩ := mem_calculateDelta.mp hrow
    obtain ⟨hpd, hppos⟩ := mem_sessionRows.mp hp
    have hbt : p.1.bookTitle = t := by
      rw [he] at hbad
      exact hbad.1
    have hcp : p.1.currentPage = cp := by
      rw [he] at hbad
      exact hbad.2
    exact absurd hppos (not_lt.mpr (hall p hpd hbt hcp))

/-- Counterexample to C2 as stated: with initial duration 60 s and final
duration 60.1 s for the same page, the delta `1/600` min survives the
`> 0` filter but rounds to `0.00`, so the written output row's duration is
*not* strictly positive. -/
theorem C2_counterexample :
    ¬(∀ row ∈ calculateDeltaActivity [⟨("B [1/2]").data, 60, ("t").data⟩]
        [⟨("B [1/2]").data, 601 / 10, ("t").data⟩], 0 < row.durationMin) := by
  intro h
  have hout := calculateDelta_single_pos
    ⟨("B [1/2]").data, 60, ("t").data⟩ ⟨("B [1/2]").data, 601 / 10, ("t").data⟩
    rfl (by show (0:ℚ) < 601 / 10 / 60 - 60 / 60; norm_num)
  have hmem := h _ (by rw [hout]; exact List.mem_singleton.mpr rfl)
  have hzero : round2 ((601:ℚ) / 10 / 60 - 60 / 60) = 0 := by
    norm_num [round2]
  rw [show (⟨(cleanRow ⟨("B [1/2]").data, 601 / 10, ("t").data⟩).bookTitle,
      (cleanRow ⟨("B [1/2]").data, 601 / 10, ("t").data⟩).currentPage,
      (cleanRow ⟨("B [1/2]").data, 601 / 10, ("t").data⟩).totalPages,
      round2 ((cleanRow ⟨("B [1/2]").data, 601 / 10, ("t").data⟩).durationMin -
        (cleanRow ⟨("B [1/2]").data, 60, ("t").data⟩).durationMin)⟩ : OutRow).durationMin =
      round2 ((601:ℚ) / 10 / 60 - 60 / 60) from rfl] at hmem
  rw [hzero] at hmem
  exact lt_irrefl 0 hmem

/-- Witness for the amended C2 on a concrete session: the surviving delta
row's computed delta is strictly positive. -/
theorem C2_positive_delta_filter_witness :
    0 < ((cleanRow ⟨("A [1/9]").data, 300, ("t").data⟩).durationMin -
      (cleanRow ⟨("A [1/9]").data, 120, ("t").data⟩).durationMin) := by
  have h := (C2_positive_delta_filter
    [⟨("A [1/9]").data, 120, ("t").data⟩] [⟨("A [1/9]").data, 300, ("t").data⟩]).1
  exact h (cleanRow ⟨("A [1/9]").data, 300, ("t").data⟩,
      (cleanRow ⟨("A [1/9]").data, 300, ("t").data⟩).durationMin -
        (cleanRow ⟨("A [1/9]").data, 120, ("t").data⟩).durationMin)
    (by
      rw [sessionRows_single_pos ⟨("A [1/9]").data, 120, ("t").data⟩
        ⟨("A [1/9]").data, 300, ("t").data⟩ rfl
        (by show (0:ℚ) < 300 / 60 - 120 / 60; norm_num)]
      exact List.mem_singleton.mpr rfl)

/-- Counterexample to C3 as stated: a final-snapshot row whose title has no
parseable page marker is *not* excluded before reconciliation — it is keyed
as `Title-<NA>` and, having no initial match, appears in the delta output
with a null current page. -/
theorem C3_counterexample :
    ∃ row ∈ calculateDeltaActivity [] [⟨("Foo").data, 60, ("t").data⟩],
      row.currentPage = none := by
  have hout := calculateDelta_only_final ⟨("Foo").data, 60, ("t").data⟩
    (by show (0:ℚ) < 60 / 60; norm_num)
  refine ⟨⟨(cleanRow ⟨("Foo").data, 60, ("t").data⟩).bookTitle,
    (cleanRow ⟨("Foo").data, 60, ("t").data⟩).currentPage,
    (cleanRow ⟨("Foo").data, 60, ("t").data⟩).totalPages,
    round2 (cleanRow ⟨("Foo").data, 60, ("t").data⟩).durationMin⟩, ?_, ?_⟩
  · rw [hout]
    exact List.mem_singleton.mpr rfl
  · rfl

/-- C3 (amended): rows with a null parsed current page are *not*
excluded before the Delta Reconciler; they participate in the merge under
the page-less key `Book_Title-<NA>`, and a pageless final-table row with no
initial-table key match and positive duration produces an output row with a
null current page. -/
theorem C3_pageless_rows_retained (initF finF : List RawRow) :
    ∀ e ∈ cleanFile finF, e.currentPage = none →
      (∀ s ∈ cleanFile initF, s.key ≠ e.key) →
      0 < e.durationMin →
      ∃ row ∈ calculateDeltaActivity initF finF,
        row.bookTitle = e.bookTitle ∧ row.currentPage = none ∧
        row.durationMin = round2 e.durationMin := by
  intro e he hcp hnokey hpos
  have hnil : (cleanFile initF).filter (fun s => decide (s.key = e.key)) = [] := by
    rw [List.eq_nil_iff_forall_not_mem]
    intro s hsf
    obtain ⟨hsI, hdec⟩ := List.mem_filter.mp hsf
    exact hnokey s hsI (by simpa using hdec)
  have hme : (e, e.durationMin) ∈ deltaRows initF finF :=
    mem_deltaRows.mpr ⟨0, mem_mergedRows.mpr ⟨he, Or.inl ⟨hnil, rfl⟩⟩, (sub_zero _).symm⟩
  have hms : (e, e.durationMin) ∈ sessionRows initF finF :=
    mem_sessionRows.mpr ⟨hme, hpos⟩
  exact ⟨formatOut (e, e.durationMin), mem_calculateDelta.mpr ⟨_, hms, rfl⟩,
    rfl, hcp, rfl⟩

/-- Witness for the amended C3 at a concrete pageless row. -/
theorem C3_pageless_rows_retained_witness :
    ∃ row ∈ calculateDeltaActivity [] [⟨("Foo").data, 60, ("t").data⟩],
      row.bookTitle = (cleanRow ⟨("Foo").data, 60, ("t").data⟩).bookTitle ∧
      row.currentPage = none ∧
      row.durationMin = round2 (cleanRow ⟨("Foo").data, 60, ("t").data⟩).durationMin := by
  apply C3_pageless_rows_retained [] [⟨("Foo").data, 60, ("t").data⟩]
    (cleanRow ⟨("Foo").data, 60, ("t").data⟩)
  · simp [cleanFile]
  · rfl
  · intro s hs
    simp [cleanFile] at hs
  · show (0:ℚ) < 60 / 60
    norm_num

/-! ### Title Parser facts -/

theorem findPagePair_no_bracket {s : List Char} (h : '[' ∉ s) :
    findPagePair s = none := by
  induction s with
  | nil => rfl
  | cons c rest ih =>
    unfold findPagePair
    rw [if_neg (fun hc => h (by rw [← hc]; exact List.mem_cons_self c rest))]
    exact ih (fun hm => h (List.mem_cons_of_mem c hm))

theorem rmBrAux_no_bracket : ∀ {s : List Char} (acc : List Char), '[' ∉ s →
    rmBrAux false acc s = acc.reverse ++ s := by
  intro s
  induction s with
  | nil => intro acc _; simp [rmBrAux]
  | cons c rest ih =>
    intro acc h
    simp only [rmBrAux]
    rw [if_neg (fun hc => h (by rw [← hc]; exact List.mem_cons_self c rest))]
    rw [ih (c :: acc) (fun hm => h (List.mem_cons_of_mem c hm))]
    simp

theorem bookTitleOf_no_bracket {s : List Char} (h : '[' ∉ s) :
    bookTitleOf s = pyStrip s := by
  unfold bookTitleOf
  rw [rmBrAux_no_bracket [] h]
  rfl

/-- Counterexample to C4 as stated: `"Foo [draft]"` has no bracketed numeric
pair, yet the parsed book title is `"Foo"`, not the whole trimmed string —
the replace step removes everything from the first `[` regardless of
whether a numeric page pair exists. -/
theorem C4_counterexample :
    findPagePair ("Foo [draft]").data = none ∧
    bookTitleOf ("Foo [draft]").data = ("Foo").data ∧
    bookTitleOf ("Foo [draft]").data ≠ pyStrip ("Foo [draft]").data := by
  refine ⟨by decide, by decide, by decide⟩

/-- C4 (amended): the parser extracts the first bracketed `N/M` pair as
(current page, total pages) and takes as book title the trimmed text before
the *first* `[` (e.g. `"Foo Bar [p. 12/340]"` ↦ `("Foo Bar", 12, 340)`);
when no such pair exists both page fields are null, and the book title is
the whole trimmed string provided the title contains no `[` at all
(everything from a first `[` is removed even without a numeric pair). -/
theorem C4_title_parsing :
    (findPagePair ("Foo Bar [p. 12/340]").data = some (12, 340) ∧
      bookTitleOf ("Foo Bar [p. 12/340]").data = ("Foo Bar").data) ∧
    (findPagePair ("Foo Bar").data = none ∧
      bookTitleOf ("Foo Bar").data = ("Foo Bar").data) ∧
    findPagePair ("A [3/4] [5/6]").data = some (3, 4) ∧
    (∀ s : List Char, '[' ∉ s → findPagePair s = none ∧ bookTitleOf s = pyStrip s) ∧
    (∀ r : RawRow, findPagePair r.title = none →
      (cleanFullRow r).currentPage = none ∧ (cleanFullRow r).totalPages = none ∧
      (cleanFullRow r).bookTitle = bookTitleOf r.title) := by
  refine ⟨⟨by decide, by decide⟩, ⟨by decide, by decide⟩, by decide, ?_, ?_⟩
  · intro s h
    exact ⟨findPagePair_no_bracket h, bookTitleOf_no_bracket h⟩
  · intro r h
    unfold cleanFullRow
    rw [h]
    exact ⟨rfl, rfl, rfl⟩

/-- Witness for the amended C4 on a bracket-free title. -/
theorem C4_title_parsing_witness :
    findPagePair ("Hello").data = none ∧
    bookTitleOf ("Hello").data = pyStrip ("Hello").data :=
  C4_title_parsing.2.2.2.1 ("Hello").data (by decide)

/-- C5 (Activity Consolidator filtering): an event survives the filter
iff its `data.app` equals the tracked reader application, its duration is
strictly positive, and its timestamp lies in at least one presence interval
under the closed test `start ≤ t ≤ end`; in particular a zero-duration
event is always excluded. -/
theorem C5_consolidator_filter (evs : List WindowEvent) (ivs : List (ℚ × ℚ)) :
    (∀ e : WindowEvent, e ∈ filterEvents evs ivs ↔
      e ∈ evs ∧ e.app = some zathuraApp ∧ 0 < e.duration ∧
      ∃ iv ∈ ivs, iv.1 ≤ e.timestamp ∧ e.timestamp ≤ iv.2) ∧
    (∀ e : WindowEvent, e.duration = 0 → e ∉ filterEvents evs ivs) := by
  have hmem : ∀ e : WindowEvent, e ∈ filterEvents evs ivs ↔
      e ∈ evs ∧ e.app = some zathuraApp ∧ 0 < e.duration ∧
      ∃ iv ∈ ivs, iv.1 ≤ e.timestamp ∧ e.timestamp ≤ iv.2 := by
    intro e
    unfold filterEvents inPresence
    rw [List.mem_filter]
    simp [List.any_eq_true, and_assoc]
  refine ⟨hmem, ?_⟩
  intro e h0 hin
  have h := ((hmem e).mp hin).2.2.1
  rw [h0] at h
  exact lt_irrefl 0 h

/-- Witness for C5: a zero-duration event is excluded even when app and
presence match. -/
theorem C5_consolidator_filter_witness :
    (⟨0, 0, some zathuraApp, some (("B").data)⟩ : WindowEvent) ∉
      filterEvents [⟨0, 0, some zathuraApp, some (("B").data)⟩] [(0, 1)] :=
  (C5_consolidator_filter [⟨0, 0, some zathuraApp, some (("B").data)⟩] [(0, 1)]).2
    ⟨0, 0, some zathuraApp, some (("B").data)⟩ rfl

/-! ### The grouping loop keyed by raw title -/

theorem lookupTitle_append_ne {t : List Char} {x : GroupEntry} (h : x.title ≠ t)
    (acc : List GroupEntry) : lookupTitle t (acc ++ [x]) = lookupTitle t acc := by
  induction acc with
  | nil => simp [lookupTitle, h]
  | cons en rest ih =>
    simp only [List.cons_append, lookupTitle]
    by_cases he : en.title = t
    · rw [if_pos he, if_pos he]
    · rw [if_neg he, if_neg he]
      exact ih

theorem lookupTitle_append_none {t : List Char} {x : GroupEntry} (hx : x.title = t)
    {acc : List GroupEntry} (h : lookupTitle t acc = none) :
    lookupTitle t (acc ++ [x]) = some x := by
  induction acc with
  | nil => simp [lookupTitle, hx]
  | cons en rest ih =>
    simp only [lookupTitle] at h
    simp only [List.cons_append, lookupTitle]
    by_cases he : en.title = t
    · rw [if_pos he] at h
      exact absurd h (Option.some_ne_none en)
    · rw [if_neg he] at h
      rw [if_neg he]
      exact ih h

theorem lookupTitle_bump_ne {t u : List Char} {d : ℚ} (h : u ≠ t)
    (acc : List GroupEntry) :
    lookupTitle t (acc.map (bumpTitle u d)) = lookupTitle t acc := by
  induction acc with
  | nil => rfl
  | cons en rest ih =>
    simp only [List.map_cons, lookupTitle]
    have htitle : (bumpTitle u d en).title = en.title := by
      unfold bumpTitle
      split
      · rfl
      · rfl
    by_cases he : en.title = t
    · rw [if_pos (htitle.trans he), if_pos he]
      have hbump : bumpTitle u d en = en := by
        unfold bumpTitle
        rw [if_neg (fun hh => h (by rw [← hh, he]))]
      rw [hbump]
    · rw [if_neg (fun hh => he (htitle.symm.trans hh)), if_neg he]
      exact ih

theorem lookupTitle_bump_eq {t : List Char} {d : ℚ} {acc : List GroupEntry}
    {en : GroupEntry} (h : lookupTitle t acc = some en) :
    lookupTitle t (acc.map (bumpTitle t d)) =
      some ⟨en.title, en.duration + d, en.timestamp⟩ := by
  induction acc with
  | nil => simp [lookupTitle] at h
  | cons en0 rest ih =>
    simp only [lookupTitle] at h
    simp only [List.map_cons, lookupTitle]
    by_cases he : en0.title = t
    · rw [if_pos he] at h
      injection h with h'
      subst h'
      have hbump : bumpTitle t d en0 =
          ⟨en0.title, en0.duration + d, en0.timestamp⟩ := by
        unfold bumpTitle
        rw [if_pos he]
      rw [hbump,
        if_pos (show (⟨en0.title, en0.duration + d, en0.timestamp⟩ : GroupEntry).title = t
          from he)]
    · rw [if_neg he] at h
      have hbump : bumpTitle t d en0 = en0 := by
        unfold bumpTitle
        rw [if_neg he]
      rw [hbump, if_neg he]
      exact ih h

theorem consolidate_foldl_some (t : List Char) (ht : t ≠ []) :
    ∀ (l : List WindowEvent) (acc : List GroupEntry) (en : GroupEntry),
      lookupTitle t acc = some en →
      lookupTitle t (l.foldl addEvent acc) =
        some ⟨en.title, en.duration +
          ((l.filter (fun e => decide (e.title = some t))).map
            (fun e => e.duration)).sum, en.timestamp⟩ := by
  intro l
  induction l with
  | nil =>
    intro acc en h
    rw [List.foldl_nil, h]
    simp
  | cons e rest ih =>
    intro acc en h
    rw [List.foldl_cons]
    cases htitle : e.title with
    | none =>
      have ha : addEvent acc e = acc := by
        unfold addEvent
        rw [htitle]
      rw [ha, List.filter_cons, if_neg (by simp [htitle])]
      exact ih acc en h
    | some u =>
      by_cases hu : u.isEmpty
      · have ha : addEvent acc e = acc := by
          unfold addEvent
          rw [htitle]; simp [hu]
        have hut : u ≠ t := by
          rw [List.isEmpty_iff] at hu
          rw [hu]
          exact fun he => ht he.symm
        rw [ha, List.filter_cons, if_neg (by simp [htitle, hut])]
        exact ih acc en h
      · by_cases hut : u = t
        · subst hut
          have ha : addEvent acc e = acc.map (bumpTitle u e.duration) := by
            simp [addEvent, htitle, hu, h]
        -- the known-title branch: the entry is bumped by this event's duration
          rw [ha, ih _ _ (lookupTitle_bump_eq h), List.filter_cons,
            if_pos (by simp [htitle])]
          simp [add_assoc]
        · have hskip : ¬(decide (e.title = some t) = true) := by
            simp [htitle, hut]
          cases hlu : lookupTitle u acc with
          | none =>
            have ha : addEvent acc e = acc ++ [⟨u, e.duration, e.timestamp⟩] := by
              simp [addEvent, htitle, hu, hlu]
            have hacc' : lookupTitle t (acc ++ [⟨u, e.duration, e.timestamp⟩]) =
                some en := by
              rw [lookupTitle_append_ne hut]
              exact h
            rw [ha, ih _ _ hacc', List.filter_cons, if_neg hskip]
          | some en0 =>
            have ha : addEvent acc e = acc.map (bumpTitle u e.duration) := by
              simp [addEvent, htitle, hu, hlu]
            have hacc' : lookupTitle t (acc.map (bumpTitle u e.duration)) = some en := by
              rw [lookupTitle_bump_ne hut]
              exact h
            rw [ha, ih _ _ hacc', List.filter_cons, if_neg hskip]

theorem consolidate_foldl_none (t : List Char) (ht : t ≠ []) :
    ∀ (l : List WindowEvent) (acc : List GroupEntry),
      lookupTitle t acc = none →
      lookupTitle t (l.foldl addEvent acc) =
        ((l.filter (fun e => decide (e.title = some t))).head?).map
          (fun e0 => ⟨t,
            ((l.filter (fun e => decide (e.title = some t))).map
              (fun e => e.duration)).sum, e0.timestamp⟩) := by
  intro l
  induction l with
  | nil =>
    intro acc h
    rw [List.foldl_nil, h]
    rfl
  | cons e rest ih =>
    intro acc h
    rw [List.foldl_cons]
    cases htitle : e.title with
    | none =>
      have ha : addEvent acc e = acc := by
        unfold addEvent
        rw [htitle]
      rw [ha, List.filter_cons, if_neg (by simp [htitle])]
      exact ih acc h
    | some u =>
      by_cases hu : u.isEmpty
      · have ha : addEvent acc e = acc := by
          unfold addEvent
          rw [htitle]; simp [hu]
        have hut : u ≠ t := by
          rw [List.isEmpty_iff] at hu
          rw [hu]
          exact fun he => ht he.symm
        rw [ha, List.filter_cons, if_neg (by simp [htitle, hut])]
        exact ih acc h
      · by_cases hut : u = t
        · subst hut
          have ha : addEvent acc e = acc ++ [⟨u, e.duration, e.timestamp⟩] := by
            simp [addEvent, htitle, hu, h]
          have hacc' : lookupTitle u (acc ++ [⟨u, e.duration, e.timestamp⟩]) =
              some ⟨u, e.duration, e.timestamp⟩ :=
            @lookupTitle_append_none u ⟨u, e.duration, e.timestamp⟩ rfl acc h
          rw [ha, consolidate_foldl_some u ht rest _ _ hacc', List.filter_cons,
            if_pos (by simp [htitle])]
          simp
        · have hskip : ¬(decide (e.title = some t) = true) := by
            simp [htitle, hut]
          cases hlu : lookupTitle u acc with
          | none =>
            have ha : addEvent acc e = acc ++ [⟨u, e.duration, e.timestamp⟩] := by
              simp [addEvent, htitle, hu, hlu]
            have hacc' : lookupTitle t (acc ++ [⟨u, e.duration, e.timestamp⟩]) =
                none := by
              rw [lookupTitle_append_ne hut]
              exact h
            rw [ha, ih _ hacc', List.filter_cons, if_neg hskip]
          | some en0 =>
            have ha : addEvent acc e = acc.map (bumpTitle u e.duration) := by
              simp [addEvent, htitle, hu, hlu]
            have hacc' : lookupTitle t (acc.map (bumpTitle u e.duration)) = none := by
              rw [lookupTitle_bump_ne hut]
              exact h
            rw [ha, ih _ hacc', List.filter_cons, if_neg hskip]

/-- C6 (Activity Consolidator accumulation): for every non-empty raw
title, the consolidated entry exists iff some surviving event carries that
exact raw title, its accumulated duration is the sum of the durations of
all surviving events with that raw title, and its representative timestamp
is the first such event's timestamp. -/
theorem C6_consolidator_sum_by_title (evs : List WindowEvent)
    (ivs : List (ℚ × ℚ)) (t : List Char) (ht : t ≠ []) :
    lookupTitle t (consolidate evs ivs) =
      (((filterEvents evs ivs).filter (fun e => decide (e.title = some t))).head?).map
        (fun e0 => ⟨t,
          (((filterEvents evs ivs).filter (fun e => decide (e.title = some t))).map
            (fun e => e.duration)).sum, e0.timestamp⟩) := by
  unfold consolidate
  exact consolidate_foldl_none t ht (filterEvents evs ivs) [] rfl

/-- Witness for C6: two surviving events of 60 s and 30 s with the same raw
title consolidate to 90 s with the first event's timestamp. -/
theorem C6_consolidator_sum_by_title_witness :
    lookupTitle ("B").data (consolidate
      [⟨0, 60, some zathuraApp, some (("B").data)⟩,
       ⟨1, 30, some zathuraApp, some (("B").data)⟩] [(0, 10)]) =
      some ⟨("B").data, 90, 0⟩ := by
  rw [C6_consolidator_sum_by_title
    [⟨0, 60, some zathuraApp, some (("B").data)⟩,
     ⟨1, 30, some zathuraApp, some (("B").data)⟩] [(0, 10)] (("B").data) (by decide)]
  have hfe : filterEvents
      [⟨0, 60, some zathuraApp, some (("B").data)⟩,
       ⟨1, 30, some zathuraApp, some (("B").data)⟩] [(0, 10)] =
      [⟨0, 60, some zathuraApp, some (("B").data)⟩,
       ⟨1, 30, some zathuraApp, some (("B").data)⟩] := by
    unfold filterEvents inPresence
    rw [List.filter_cons, if_pos (by norm_num), List.filter_cons,
      if_pos (by norm_num), List.filter_nil]
  rw [hfe]
  norm_num

/-- An event whose title is absent or empty never changes the grouping
accumulator. -/
theorem addEvent_skip {e : WindowEvent}
    (h : (match e.title with | some u => !u.isEmpty | none => false) = false)
    (acc : List GroupEntry) : addEvent acc e = acc := by
  cases htitle : e.title with
  | none => simp [addEvent, htitle]
  | some u =>
    rw [htitle] at h
    simp only [Bool.not_eq_false'] at h
    simp [addEvent, htitle, h]

theorem foldl_addEvent_filter : ∀ (l : List WindowEvent) (acc : List GroupEntry),
    l.foldl addEvent acc =
      (l.filter (fun e =>
        match e.title with | some u => !u.isEmpty | none => false)).foldl addEvent acc := by
  intro l
  induction l with
  | nil => intro acc; rfl
  | cons e rest ih =>
    intro acc
    rw [List.foldl_cons, List.filter_cons]
    by_cases hg : (match e.title with | some u => !u.isEmpty | none => false) = true
    · rw [if_pos hg, List.foldl_cons]
      exact ih (addEvent acc e)
    · rw [if_neg hg, addEvent_skip (Bool.eq_false_iff.mpr hg) acc]
      exact ih acc

theorem titles_nonempty_foldl : ∀ (l : List WindowEvent) (acc : List GroupEntry),
    (∀ en ∈ acc, en.title ≠ []) →
    ∀ en ∈ l.foldl addEvent acc, en.title ≠ [] := by
  intro l
  induction l with
  | nil => intro acc hacc; exact hacc
  | cons e rest ih =>
    intro acc hacc
    rw [List.foldl_cons]
    apply ih
    intro en hen
    cases htitle : e.title with
    | none =>
      rw [show addEvent acc e = acc by simp [addEvent, htitle]] at hen
      exact hacc en hen
    | some u =>
      by_cases hu : u.isEmpty
      · rw [show addEvent acc e = acc by rw [addEvent]; rw [htitle]; simp [hu]] at hen
        exact hacc en hen
      · cases hlu : lookupTitle u acc with
        | none =>
          rw [show addEvent acc e = acc ++ [⟨u, e.duration, e.timestamp⟩] by
            simp [addEvent, htitle, hu, hlu]] at hen
          rcases List.mem_append.mp hen with hen | hen
          · exact hacc en hen
          · rcases List.mem_singleton.mp hen with rfl
            simpa using hu
        | some en0 =>
          rw [show addEvent acc e = acc.map (bumpTitle u e.duration) by
            simp [addEvent, htitle, hu, hlu]] at hen
          obtain ⟨en1, hen1, hbe⟩ := List.mem_map.mp hen
          have htl : en.title = en1.title := by
            rw [← hbe]
            unfold bumpTitle
            split
            · rfl
            · rfl
          rw [htl]
          exact hacc en1 hen1

/-- C10 (implicit): an event whose title attribute is missing or empty
contributes nothing to the consolidated mapping — dropping all such events
first leaves the consolidation unchanged, and no consolidated entry ever
carries an empty title. -/
theorem C10_missing_title_dropped (evs : List WindowEvent) (ivs : List (ℚ × ℚ)) :
    (∀ en ∈ consolidate evs ivs, en.title ≠ []) ∧
    consolidate evs ivs =
      ((filterEvents evs ivs).filter (fun e =>
        match e.title with | some u => !u.isEmpty | none => false)).foldl addEvent [] := by
  constructor
  · intro en hen
    exact titles_nonempty_foldl (filterEvents evs ivs) [] (by simp) en hen
  · unfold consolidate
    exact foldl_addEvent_filter (filterEvents evs ivs) []

/-- Witness for C10: consolidating two titled events and one empty-titled
event yields only the titled entry, whose title is non-empty. -/
theorem C10_missing_title_dropped_witness :
    (⟨("B").data, (60:ℚ) + 30, 0⟩ : GroupEntry).title ≠ [] := by
  apply (C10_missing_title_dropped
    [⟨0, 60, some zathuraApp, some (("B").data)⟩,
     ⟨1, 30, some zathuraApp, some (("B").data)⟩,
     ⟨2, 30, some zathuraApp, some []⟩] [(0, 10)]).1
  show (⟨("B").data, (60:ℚ) + 30, 0⟩ : GroupEntry) ∈ consolidate _ _
  have hc : consolidate
      [⟨0, 60, some zathuraApp, some (("B").data)⟩,
       ⟨1, 30, some zathuraApp, some (("B").data)⟩,
       ⟨2, 30, some zathuraApp, some []⟩] [(0, 10)] =
      [⟨("B").data, (60:ℚ) + 30, 0⟩] := rfl
  rw [hc]
  exact List.mem_singleton.mpr rfl

/-- C9 (output formatting): every delta-output row's duration is the
2-decimal rounding of its delta (hence an integer number of hundredths),
the delta output is sorted ascending by (book title, current page), and
full (non-delta) mode exports the exact unrounded `seconds / 60`. -/
theorem C9_output_formatting (initF finF : List RawRow) (rows : List RawRow) :
    (∀ row ∈ calculateDeltaActivity initF finF,
      ∃ z : ℤ, row.durationMin = (z : ℚ) / 100) ∧
    (calculateDeltaActivity initF finF).Pairwise (fun x y => rowLe x y = true) ∧
    (cleanFullData rows).map (fun r => r.durationMin) =
      rows.map (fun r => r.duration / 60) := by
  refine ⟨?_, ?_, ?_⟩
  · intro row hrow
    obtain ⟨p, _, he⟩ := mem_calculateDelta.mp hrow
    refine ⟨⌊p.2 * 100 + 1 / 2⌋, ?_⟩
    rw [he]
    rfl
  · exact pairwise_sortLe rowLe rowLe_total rowLe_trans _
  · unfold cleanFullData
    rw [List.map_map]
    rfl

/-- Witness for C9: the concrete session's output duration is an integer
number of hundredths of a minute. -/
theorem C9_output_formatting_witness :
    ∃ z : ℤ,
      (⟨(cleanRow ⟨("A [1/9]").data, 300, ("t").data⟩).bookTitle,
        (cleanRow ⟨("A [1/9]").data, 300, ("t").data⟩).currentPage,
        (cleanRow ⟨("A [1/9]").data, 300, ("t").data⟩).totalPages,
        round2 ((cleanRow ⟨("A [1/9]").data, 300, ("t").data⟩).durationMin -
          (cleanRow ⟨("A [1/9]").data, 120, ("t").data⟩).durationMin)⟩ : OutRow).durationMin =
        (z : ℚ) / 100 := by
  apply (C9_output_formatting [⟨("A [1/9]").data, 120, ("t").data⟩]
    [⟨("A [1/9]").data, 300, ("t").data⟩] []).1
  rw [calculateDelta_single_pos ⟨("A [1/9]").data, 120, ("t").data⟩
    ⟨("A [1/9]").data, 300, ("t").data⟩ rfl
    (by show (0:ℚ) < 300 / 60 - 120 / 60; norm_num)]
  exact List.mem_singleton.mpr rfl

/-! ### Range Aggregator: per-page sums partition the filtered rows -/

theorem sum_filter_split (f : List OutRow) (p : ℕ) :
    ((f.filter (fun r => decide (r.currentPage = some p))).map
      (fun r => r.durationMin)).sum +
    ((f.filter (fun r => !decide (r.currentPage = some p))).map
      (fun r => r.durationMin)).sum =
    (f.map (fun r => r.durationMin)).sum := by
  induction f with
  | nil => simp
  | cons r rest ih =>
    by_cases h : r.currentPage = some p
    · rw [List.filter_cons, List.filter_cons, if_pos (by simp [h]),
        if_neg (by simp [h])]
      simp only [List.map_cons, List.sum_cons]
      rw [add_assoc, ih]
    · rw [List.filter_cons, List.filter_cons, if_neg (by simp [h]),
        if_pos (by simp [h])]
      simp only [List.map_cons, List.sum_cons]
      rw [add_left_comm, ih]

theorem sum_pageSums : ∀ (P : List ℕ) (f : List OutRow), P.Nodup →
    (∀ r ∈ f, ∃ p ∈ P, r.currentPage = some p) →
    (P.map (pageSum f)).sum = (f.map (fun r => r.durationMin)).sum := by
  intro P
  induction P with
  | nil =>
    intro f _ hcov
    have hf : f = [] := by
      rw [List.eq_nil_iff_forall_not_mem]
      intro r hr
      obtain ⟨p, hp, _⟩ := hcov r hr
      exact absurd hp (List.not_mem_nil p)
    rw [hf]
    simp
  | cons p P' ih =>
    intro f hnd hcov
    rw [List.map_cons, List.sum_cons]
    have hq : ∀ q ∈ P', pageSum f q =
        pageSum (f.filter (fun r => !decide (r.currentPage = some p))) q := by
      intro q hqm
      have hpq : q ≠ p := fun he =>
        (List.pairwise_cons.mp hnd).1 q hqm he.symm
      unfold pageSum
      rw [List.filter_filter]
      have hfl : List.filter (fun r => decide (r.currentPage = some q)) f =
          List.filter (fun a => decide (a.currentPage = some q) &&
            !decide (a.currentPage = some p)) f := by
        apply List.filter_congr
        intro r _
        by_cases hc : r.currentPage = some q
        · have hnc : ¬(r.currentPage = some p) := by
            rw [hc]
            simp [hpq]
          simp [hc, hnc, hpq]
        · simp [hc]
      rw [hfl]
    have hcov2 : ∀ r ∈ f.filter (fun r => !decide (r.currentPage = some p)),
        ∃ q ∈ P', r.currentPage = some q := by
      intro r hr
      obtain ⟨hrf, hrb⟩ := List.mem_filter.mp hr
      obtain ⟨q, hq', hcq⟩ := hcov r hrf
      rcases List.mem_cons.mp hq' with rfl | hq'
      · exfalso
        rw [hcq] at hrb
        simp at hrb
      · exact ⟨q, hq', hcq⟩
    rw [List.map_congr_left hq,
      ih _ (List.pairwise_cons.mp hnd).2 hcov2]
    exact sum_filter_split f p

/-- C7 (Range Aggregator statistics): whenever the analysis reaches an
aggregated result, every output page lies in the inclusive range, there is
one output row per distinct page, each row's duration is the sum over all
filtered rows with that page (duplicates summed), and the reported average
equals the sum of all filtered durations divided by the number of unique
output pages (mean over per-page sums, not over raw rows). -/
theorem C7_range_aggregator (df : List OutRow) (pat : List Char → Bool) (a b : ℕ)
    (t : List Char) (agg : List (ℕ × ℚ)) (avg total : ℚ)
    (h : analyzeOutcome df pat a b = .result t agg avg total) :
    (∀ pr ∈ agg, a ≤ pr.1 ∧ pr.1 ≤ b) ∧
    (agg.map Prod.fst).Nodup ∧
    (∀ pr ∈ agg, pr.2 = pageSum (rangeRows df pat a b) pr.1) ∧
    total = ((rangeRows df pat a b).map (fun r => r.durationMin)).sum ∧
    avg = ((rangeRows df pat a b).map (fun r => r.durationMin)).sum /
      (agg.length : ℚ) := by
  unfold analyzeOutcome at h
  split at h
  · exact absurd h (by simp)
  · rename_i t0 hu
    by_cases hf : (rangeRows df pat a b).isEmpty = true
    · rw [if_pos hf] at h
      exact absurd h (by simp)
    · rw [if_neg hf] at h
      simp only at h
      injection h with h1 h2 h3 h4
      subst h1
      subst h2
      subst h3
      subst h4
      have hpages : ∀ pr ∈ aggSeries (rangeRows df pat a b),
          ∃ p, pr = (p, pageSum (rangeRows df pat a b) p) ∧
            ∃ r ∈ rangeRows df pat a b, r.currentPage = some p := by
        intro pr hpr
        obtain ⟨p, hp, he⟩ := List.mem_map.mp hpr
        rw [mem_sortLe, mem_firstDedup] at hp
        obtain ⟨r, hr, hcp⟩ := List.mem_filterMap.mp hp
        exact ⟨p, he.symm, r, hr, hcp⟩
      have hinrange : ∀ r ∈ rangeRows df pat a b, ∀ p : ℕ,
          r.currentPage = some p → a ≤ p ∧ p ≤ b := by
        intro r hr p hcp
        obtain ⟨_, hb⟩ := List.mem_filter.mp hr
        unfold inPageRange at hb
        rw [hcp] at hb
        simpa using hb
      have hcover : ∀ r ∈ rangeRows df pat a b,
          ∃ p ∈ sortLe natLeB
            (firstDedup ((rangeRows df pat a b).filterMap (fun r => r.currentPage))),
            r.currentPage = some p := by
        intro r hr
        obtain ⟨_, hb⟩ := List.mem_filter.mp hr
        cases hcp : r.currentPage with
        | none =>
          unfold inPageRange at hb
          rw [hcp] at hb
          simp at hb
        | some p =>
          refine ⟨p, ?_, rfl⟩
          rw [mem_sortLe, mem_firstDedup]
          exact List.mem_filterMap.mpr ⟨r, hr, hcp⟩
      have hnodupP : (sortLe natLeB
          (firstDedup ((rangeRows df pat a b).filterMap (fun r => r.currentPage)))).Nodup :=
        ((sortLe_perm natLeB _).nodup_iff).mpr (nodup_firstDedup _)
      have hsum : ((aggSeries (rangeRows df pat a b)).map Prod.snd).sum =
          ((rangeRows df pat a b).map (fun r => r.durationMin)).sum := by
        unfold aggSeries
        rw [List.map_map]
        exact sum_pageSums _ _ hnodupP hcover
      refine ⟨?_, ?_, ?_, hsum, ?_⟩
      · intro pr hpr
        obtain ⟨p, hpe, r, hr, hcp⟩ := hpages pr hpr
        have := hinrange r hr p hcp
        rw [hpe]
        exact this
      · unfold aggSeries
        rw [List.map_map]
        rw [show (Prod.fst ∘ fun p => (p, pageSum (rangeRows df pat a b) p)) = id
          from rfl]
        rw [List.map_id]
        exact hnodupP
      · intro pr hpr
        obtain ⟨p, hpe, _, _, _⟩ := hpages pr hpr
        rw [hpe]
      · rw [hsum]
  · exact absurd h (by simp)

/-- Witness for C7 on a concrete table with two duplicate rows for page 3:
the aggregation reaches a result and its output pages are distinct. -/
theorem C7_range_aggregator_witness :
    ((aggSeries (rangeRows
      [⟨("B").data, some 3, none, 1⟩, ⟨("B").data, some 3, none, 2⟩]
      (fun tl => decide (tl = ("B").data)) 1 10)).map Prod.fst).Nodup :=
  (C7_range_aggregator
    [⟨("B").data, some 3, none, 1⟩, ⟨("B").data, some 3, none, 2⟩]
    (fun tl => decide (tl = ("B").data)) 1 10 (("B").data)
    (aggSeries (rangeRows
      [⟨("B").data, some 3, none, 1⟩, ⟨("B").data, some 3, none, 2⟩]
      (fun tl => decide (tl = ("B").data)) 1 10))
    (((aggSeries (rangeRows
        [⟨("B").data, some 3, none, 1⟩, ⟨("B").data, some 3, none, 2⟩]
        (fun tl => decide (tl = ("B").data)) 1 10)).map Prod.snd).sum /
      ((aggSeries (rangeRows
        [⟨("B").data, some 3, none, 1⟩, ⟨("B").data, some 3, none, 2⟩]
        (fun tl => decide (tl = ("B").data)) 1 10)).length : ℚ))
    (((aggSeries (rangeRows
        [⟨("B").data, some 3, none, 1⟩, ⟨("B").data, some 3, none, 2⟩]
        (fun tl => decide (tl = ("B").data)) 1 10)).map Prod.snd).sum)
    rfl).2.1

/-- C8 (Range Aggregator selection outcomes): zero distinct matched
titles gives the "not found" outcome with exit status 0; more than one
gives the "ambiguous" outcome listing exactly the distinct matched titles
(without duplicates) and exit status 1; an aggregated result is produced
only when exactly one distinct title matches. -/
theorem C8_selection_outcomes (df : List OutRow) (pat : List Char → Bool) (a b : ℕ) :
    (uniqueTitles df pat = [] →
      analyzeOutcome df pat a b = .notFound ∧
      outcomeExitCode (analyzeOutcome df pat a b) = 0) ∧
    (2 ≤ (uniqueTitles df pat).length →
      analyzeOutcome df pat a b = .ambiguous (uniqueTitles df pat) ∧
      outcomeExitCode (analyzeOutcome df pat a b) = 1) ∧
    (∀ s : List Char, s ∈ uniqueTitles df pat ↔
      ∃ r ∈ df, pat r.bookTitle = true ∧ r.bookTitle = s) ∧
    (uniqueTitles df pat).Nodup ∧
    (∀ (t : List Char) (agg : List (ℕ × ℚ)) (avg total : ℚ),
      analyzeOutcome df pat a b = .result t agg avg total →
      uniqueTitles df pat = [t]) := by
  refine ⟨?_, ?_, ?_, ?_, ?_⟩
  · intro h
    unfold analyzeOutcome
    rw [h]
    exact ⟨rfl, rfl⟩
  · intro h
    rcases hu : uniqueTitles df pat with _ | ⟨t0, _ | ⟨t1, us⟩⟩
    · rw [hu] at h
      simp at h
    · rw [hu] at h
      simp at h
    · unfold analyzeOutcome
      rw [hu]
      exact ⟨rfl, rfl⟩
  · intro s
    unfold uniqueTitles matchingRows
    rw [mem_firstDedup]
    constructor
    · intro hs
      obtain ⟨r, hr, he⟩ := List.mem_map.mp hs
      obtain ⟨hrdf, hrp⟩ := List.mem_filter.mp hr
      exact ⟨r, hrdf, hrp, he⟩
    · rintro ⟨r, hrdf, hrp, he⟩
      exact List.mem_map.mpr ⟨r, List.mem_filter.mpr ⟨hrdf, hrp⟩, he⟩
  · exact nodup_firstDedup _
  · intro t agg avg total h
    unfold analyzeOutcome at h
    split at h
    · exact absurd h (by simp)
    · rename_i t0 hu
      by_cases hf : (rangeRows df pat a b).isEmpty = true
      · rw [if_pos hf] at h
        exact absurd h (by simp)
      · rw [if_neg hf] at h
        simp only at h
        injection h with h1 _ _ _
        rw [hu, h1]
    · exact absurd h (by simp)

/-- Witness for C8: a pattern matching two distinct titles yields the
ambiguous outcome and exit status 1. -/
theorem C8_selection_outcomes_witness :
    outcomeExitCode (analyzeOutcome
      [⟨("A").data, some 1, none, 1⟩, ⟨("B").data, some 1, none, 1⟩]
      (fun _ => true) 1 2) = 1 :=
  ((C8_selection_outcomes
    [⟨("A").data, some 1, none, 1⟩, ⟨("B").data, some 1, none, 1⟩]
    (fun _ => true) 1 2).2.1 (by decide)).2
